import Mathlib

/-!
Verification of the cryptokit Bitcoin transaction codec
(src/cryptokit/transaction.py) against its specification.

Byte buffers are modelled as lists of naturals, each below 256.  Python
slicing data[a:b] is List.take / List.drop; struct.unpack of a fixed-width
little-endian field is funpack below.  Fallible operations return Except
or carry an Option Err alongside the mutated state, mirroring Python
exceptions propagating out of a method that mutates its object in place.
-/

namespace Cryptokit

/-- Error taxonomy of the specification: TruncatedInput (buffer shorter than
a field declares, including struct.error from an exact-width unpack),
MalformedTransaction (the trailing-data assertion), InvalidState (indexing
the first input of an empty input list), and the TypeError raised when a
byte operation is applied to an absent (None) raw buffer. -/
inductive Err where
  | truncatedInput
  | malformedTransaction
  | invalidState
  | typeError
  deriving DecidableEq, Repr

deriving instance DecidableEq for Except

/-- A buffer is made of bytes: every element is below 256. -/
def ValidBytes (l : List Nat) : Prop := ∀ b ∈ l, b < 256

instance (l : List Nat) : Decidable (ValidBytes l) :=
  inferInstanceAs (Decidable (∀ b ∈ l, b < 256))

/-- Value of a little-endian byte list. -/
def fromLE : List Nat → Nat
  | [] => 0
  | b :: rest => b + 256 * fromLE rest

/-- Little-endian byte list of width w for a value. -/
def toLE : Nat → Nat → List Nat
  | 0, _ => []
  | w + 1, v => v % 256 :: toLE w (v / 256)

/-- Modelled from the spec: BitcoinEncoding.funpack / decode_fixed is not
under src/.  It unpacks an exact-width little-endian slice and fails with
TruncatedInput when the slice is shorter than the requested width (the
struct.error raised by an exact-length unpack). -/
def funpack (w : Nat) (s : List Nat) : Except Err Nat :=
  if s.length = w then .ok (fromLE s) else .error .truncatedInput

/-- Modelled from the spec: BitcoinEncoding.varlen_decode is not under
src/.  The discriminant byte selects the tier: 0-252 encode themselves,
253 marks a 2-byte little-endian value, 254 a 4-byte one, 255 an 8-byte
one; a short (or empty) buffer fails with TruncatedInput.  No canonicity
check is made on decode. -/
def varlen_decode (d : List Nat) : Except Err (Nat × List Nat) :=
  match d with
  | [] => .error .truncatedInput
  | b :: rest =>
    if b = 255 then
      match funpack 8 (rest.take 8) with
      | .ok v => .ok (v, rest.drop 8)
      | .error e => .error e
    else if b = 254 then
      match funpack 4 (rest.take 4) with
      | .ok v => .ok (v, rest.drop 4)
      | .error e => .error e
    else if b = 253 then
      match funpack 2 (rest.take 2) with
      | .ok v => .ok (v, rest.drop 2)
      | .error e => .error e
    else .ok (b, rest)

/-- Modelled from the spec: BitcoinEncoding.varlen_encode is not under
src/.  It picks the smallest of the four tiers. -/
def varlen_encode (v : Nat) : List Nat :=
  if v < 253 then [v]
  else if v ≤ 65535 then 253 :: toLE 2 v
  else if v ≤ 4294967295 then 254 :: toLE 4 v
  else 255 :: toLE 8 v

/-- An input record, as the Input namedtuple of transaction.py. -/
structure Input where
  prevout_hash : List Nat
  prevout_idx : Nat
  script_sig : List Nat
  seqno : Nat
  deriving DecidableEq, Repr

/-- An output record, as the Output namedtuple of transaction.py. -/
structure Output where
  amount : Nat
  script_pub_key : List Nat
  deriving DecidableEq, Repr

/-- The mutable Transaction object: raw cache, inputs, outputs, locktime,
fees, version and hash cache, exactly the attributes set in Python
Transaction.__init__. -/
structure Transaction where
  raw_cache : Option (List Nat)
  inputs : List Input
  outputs : List Output
  locktime : Nat
  fees : Option Int
  version : Nat
  hash_cache : Option (List Nat)
  deriving DecidableEq, Repr

/-- The state Transaction.__init__ produces when called without raw bytes. -/
def Transaction.empty : Transaction :=
  { raw_cache := none, inputs := [], outputs := [], locktime := 0,
    fees := none, version := 1, hash_cache := none }

/-- The class attribute Transaction.nullprev, 32 zero bytes. -/
def nullprev : List Nat := List.replicate 32 0

/-- Python truthiness of the optional fees argument: None and 0 are falsy. -/
def feesTruthy : Option Int → Bool
  | none => false
  | some v => v != 0

/-- Python truthiness of the optional raw argument: None and an empty byte
string are falsy. -/
def rawTruthy : Option (List Nat) → Bool
  | none => false
  | some [] => false
  | some (_ :: _) => true

/-- The input loop of Transaction.disassemble.  Each iteration slices 32
bytes of previous-output hash, unpacks the 4-byte index at offset 32,
decodes the script-length varint at offset 36, slices that many script
bytes, unpacks the 4-byte sequence number after them, and appends the
Input.  On an exception the list appended so far is returned together with
the error, since the Python loop appends to self.inputs in place. -/
def parseInputs : Nat → List Nat → List Input → List Input × List Nat × Option Err
  | 0, data, acc => (acc, data, none)
  | n + 1, data, acc =>
    let prevout_hash := data.take 32
    match funpack 4 ((data.drop 32).take 4) with
    | .error e => (acc, data, some e)
    | .ok prevout_idx =>
      match varlen_decode (data.drop 36) with
      | .error e => (acc, data, some e)
      | .ok (ss_len, d1) =>
        let script_sig := d1.take ss_len
        match funpack 4 ((d1.drop ss_len).take 4) with
        | .error e => (acc, d1, some e)
        | .ok seqno =>
          parseInputs n (d1.drop (ss_len + 4))
            (acc ++ [Input.mk prevout_hash prevout_idx script_sig seqno])

/-- The output loop of Transaction.disassemble: 8-byte amount, script-length
varint, script bytes.  Note the Python code never checks that the script
slice is full length here; a short final slice only fails later. -/
def parseOutputs : Nat → List Nat → List Output → List Output × List Nat × Option Err
  | 0, data, acc => (acc, data, none)
  | n + 1, data, acc =>
    match funpack 8 (data.take 8) with
    | .error e => (acc, data, some e)
    | .ok amount =>
      match varlen_decode (data.drop 8) with
      | .error e => (acc, data, some e)
      | .ok (ps_len, d1) =>
        let pk_script := d1.take ps_len
        parseOutputs n (d1.drop ps_len) (acc ++ [Output.mk amount pk_script])

/-- The body of Transaction.disassemble from the version unpack onward,
operating on the raw buffer.  The returned Transaction reflects every
mutation made before a failure, in Python statement order: version is set
before the input-count varint is read, inputs is reset to the list parsed
so far, outputs likewise, locktime and the hash-cache reset happen before
the trailing-length assertion, and the raw buffer is dumped only after it.
The assertion failure (trailing data) is MalformedTransaction. -/
def disassembleCore (t : Transaction) (data : List Nat) (dump_raw : Bool) :
    Transaction × Option Err :=
  match funpack 4 (data.take 4) with
  | .error e => (t, some e)
  | .ok version =>
    let t1 := { t with version := version }
    match varlen_decode (data.drop 4) with
    | .error e => (t1, some e)
    | .ok (input_count, data1) =>
      match parseInputs input_count data1 [] with
      | (inps, _, some e) => ({ t1 with inputs := inps }, some e)
      | (inps, data2, none) =>
        let t2 := { t1 with inputs := inps }
        match varlen_decode data2 with
        | .error e => (t2, some e)
        | .ok (output_count, data2b) =>
          match parseOutputs output_count data2b [] with
          | (outs, _, some e) => ({ t2 with outputs := outs }, some e)
          | (outs, data3, none) =>
            let t3 := { t2 with outputs := outs }
            match funpack 4 (data3.take 4) with
            | .error e => (t3, some e)
            | .ok locktime =>
              let t4 := { t3 with locktime := locktime, hash_cache := none }
              if data3.length = 4 then
                (if dump_raw then { t4 with raw_cache := none } else t4, none)
              else (t4, some .malformedTransaction)

/-- Transaction.disassemble(raw, dump_raw, fees): store fees if truthy,
store raw if truthy, then parse self.raw_cache (a None buffer raises
TypeError at the first slice-unpack).  Returns the mutated object and the
propagated exception, if any. -/
def Transaction.disassemble (t : Transaction) (raw : Option (List Nat))
    (dump_raw : Bool) (fees : Option Int) : Transaction × Option Err :=
  let t1 := if feesTruthy fees then { t with fees := fees } else t
  let t2 := if rawTruthy raw then { t1 with raw_cache := raw } else t1
  match t2.raw_cache with
  | none => (t2, some .typeError)
  | some data => disassembleCore t2 data dump_raw

/-- Per-input wire encoding used by Transaction.assemble: 32-byte hash,
4-byte little-endian index, script-length varint, script bytes, 4-byte
little-endian sequence number. -/
def encodeInput (i : Input) : List Nat :=
  i.prevout_hash ++ toLE 4 i.prevout_idx ++ varlen_encode i.script_sig.length
    ++ i.script_sig ++ toLE 4 i.seqno

/-- Per-output wire encoding used by Transaction.assemble: 8-byte
little-endian amount, script-length varint, script bytes. -/
def encodeOutput (o : Output) : List Nat :=
  toLE 8 o.amount ++ varlen_encode o.script_pub_key.length ++ o.script_pub_key

/-- The byte string built by Transaction.assemble. -/
def Transaction.assembleBytes (t : Transaction) : List Nat :=
  toLE 4 t.version
    ++ varlen_encode t.inputs.length
    ++ (t.inputs.map encodeInput).flatten
    ++ varlen_encode t.outputs.length
    ++ (t.outputs.map encodeOutput).flatten
    ++ toLE 4 t.locktime

/-- Transaction.assemble: build the byte string, store it as the raw cache,
reset the hash cache, and return the bytes. -/
def Transaction.assemble (t : Transaction) : List Nat × Transaction :=
  (t.assembleBytes,
   { t with raw_cache := some t.assembleBytes, hash_cache := none })

/-- The Transaction.raw property: lazily assemble when the cache is absent. -/
def Transaction.rawProp (t : Transaction) : List Nat × Transaction :=
  match t.raw_cache with
  | some r => (r, t)
  | none => t.assemble

/-- The Transaction.is_coinbase property: inputs[0].prevout_hash compared to
32 zero bytes.  Python raises IndexError when inputs is empty; in the
specification taxonomy that precondition violation is InvalidState. -/
def Transaction.is_coinbase (t : Transaction) : Except Err Bool :=
  match t.inputs with
  | [] => .error .invalidState
  | inp :: _ => .ok (decide (inp.prevout_hash = nullprev))

/-- The Transaction.hash property, parameterized by the external 256-bit
hash primitive H (hashlib sha256, an opaque collaborator).  The code
applies H twice to self.raw_cache directly; when that cache is None (empty
construction, or discarded by dump_raw) the byte operation on None raises
TypeError instead of rebuilding the buffer through the raw property. -/
def Transaction.hashProp (H : List Nat → List Nat) (t : Transaction) :
    Except Err (List Nat × Transaction) :=
  match t.hash_cache with
  | some h => .ok (h, t)
  | none =>
    match t.raw_cache with
    | none => .error .typeError
    | some r =>
      let h := H (H r)
      .ok (h, { t with hash_cache := some h })

/-- Strict variant of varlen_decode used only to state the amended
round-trip claim: it additionally demands that the consumed bytes be the
canonical (minimal-tier) encoding of the decoded value.  The source
decoder makes no such check; the round trip is byte-exact precisely on
buffers this stricter decoder accepts. -/
def varlen_decode_strict (d : List Nat) : Except Err (Nat × List Nat) :=
  match varlen_decode d with
  | .error e => .error e
  | .ok (v, rest) =>
    if varlen_encode v ++ rest = d then .ok (v, rest)
    else .error .malformedTransaction

/-- Input loop of the amended round-trip claim: identical to parseInputs
except each script-length varint must be canonical. -/
def parseInputsStrict : Nat → List Nat → Except Err (List Input × List Nat)
  | 0, data => .ok ([], data)
  | n + 1, data =>
    match funpack 4 ((data.drop 32).take 4) with
    | .error e => .error e
    | .ok prevout_idx =>
      match varlen_decode_strict (data.drop 36) with
      | .error e => .error e
      | .ok (ss_len, d1) =>
        match funpack 4 ((d1.drop ss_len).take 4) with
        | .error e => .error e
        | .ok seqno =>
          match parseInputsStrict n (d1.drop (ss_len + 4)) with
          | .error e => .error e
          | .ok (ins, rest) =>
            .ok (Input.mk (data.take 32) prevout_idx (d1.take ss_len) seqno :: ins,
              rest)

/-- Output loop of the amended round-trip claim: identical to parseOutputs
except each script-length varint must be canonical. -/
def parseOutputsStrict : Nat → List Nat → Except Err (List Output × List Nat)
  | 0, data => .ok ([], data)
  | n + 1, data =>
    match funpack 8 (data.take 8) with
    | .error e => .error e
    | .ok amount =>
      match varlen_decode_strict (data.drop 8) with
      | .error e => .error e
      | .ok (ps_len, d1) =>
        match parseOutputsStrict n (d1.drop ps_len) with
        | .error e => .error e
        | .ok (outs, rest) =>
          .ok (Output.mk amount (d1.take ps_len) :: outs, rest)

/-- The amended round-trip claim's parser: the transaction layout of
disassemble with every varint required to be canonical, returning the
parsed fields.  Buffers it accepts are exactly the structurally valid
buffers with minimal varint encodings. -/
def disassembleStrict (data : List Nat) :
    Except Err (Nat × List Input × List Output × Nat) :=
  match funpack 4 (data.take 4) with
  | .error e => .error e
  | .ok version =>
    match varlen_decode_strict (data.drop 4) with
    | .error e => .error e
    | .ok (input_count, data1) =>
      match parseInputsStrict input_count data1 with
      | .error e => .error e
      | .ok (ins, data2) =>
        match varlen_decode_strict data2 with
        | .error e => .error e
        | .ok (output_count, data2b) =>
          match parseOutputsStrict output_count data2b with
          | .error e => .error e
          | .ok (outs, data3) =>
            match funpack 4 (data3.take 4) with
            | .error e => .error e
            | .ok locktime =>
              if data3.length = 4 then .ok (version, ins, outs, locktime)
              else .error .malformedTransaction

end Cryptokit

namespace Cryptokit

@[simp] theorem length_toLE (w v : Nat) : (toLE w v).length = w := by
  induction w generalizing v with
  | zero => rfl
  | succ w ih => simp [toLE, ih]

theorem validBytes_toLE (w v : Nat) : ValidBytes (toLE w v) := by
  induction w generalizing v with
  | zero => intro b hb; simp [toLE] at hb
  | succ w ih =>
    intro b hb
    simp only [toLE, List.mem_cons] at hb
    rcases hb with h | h
    · subst h; exact Nat.mod_lt _ (by omega)
    · exact ih (v / 256) b h

theorem fromLE_toLE (w v : Nat) (h : v < 256 ^ w) : fromLE (toLE w v) = v := by
  induction w generalizing v with
  | zero => simp [toLE, fromLE]; omega
  | succ w ih =>
    have hdiv : v / 256 < 256 ^ w := by
      rw [Nat.div_lt_iff_lt_mul (by omega)]
      calc v < 256 ^ (w + 1) := h
        _ = 256 ^ w * 256 := by ring
    simp [toLE, fromLE, ih (v / 256) hdiv]
    omega

theorem toLE_fromLE (s : List Nat) (hv : ValidBytes s) : toLE s.length (fromLE s) = s := by
  induction s with
  | nil => rfl
  | cons b t ih =>
    have hb : b < 256 := hv b (by simp)
    have ht : ValidBytes t := fun x hx => hv x (by simp [hx])
    simp only [List.length_cons, toLE, fromLE]
    have hmod : (b + 256 * fromLE t) % 256 = b := by
      rw [Nat.add_mul_mod_self_left, Nat.mod_eq_of_lt hb]
    have hdiv : (b + 256 * fromLE t) / 256 = fromLE t := by
      rw [Nat.add_mul_div_left _ _ (by omega : (0:Nat) < 256),
        Nat.div_eq_of_lt hb, Nat.zero_add]
    rw [hmod, hdiv, ih ht]

theorem fromLE_lt (s : List Nat) (hv : ValidBytes s) : fromLE s < 256 ^ s.length := by
  induction s with
  | nil => simp [fromLE]
  | cons b t ih =>
    have hb : b < 256 := hv b (by simp)
    have ht : ValidBytes t := fun x hx => hv x (by simp [hx])
    have := ih ht
    simp only [fromLE, List.length_cons, pow_succ]
    calc b + 256 * fromLE t < 256 + 256 * fromLE t := by omega
      _ = 256 * (fromLE t + 1) := by ring
      _ ≤ 256 * 256 ^ t.length := by
          exact Nat.mul_le_mul_left 256 (by omega)
      _ = 256 ^ t.length * 256 := by ring

theorem funpack_ok (w : Nat) (s : List Nat) (h : s.length = w) :
    funpack w s = .ok (fromLE s) := by
  simp [funpack, h]

theorem funpack_take_ok (w : Nat) (d : List Nat) (v : Nat)
    (h : funpack w (d.take w) = .ok v) :
    w ≤ d.length ∧ v = fromLE (d.take w) := by
  unfold funpack at h
  split at h
  · next heq =>
    refine ⟨?_, ?_⟩
    · rw [List.length_take] at heq; omega
    · injection h with h'; exact h'.symm
  · cases h

theorem varlen_decode_cons (b : Nat) (rest : List Nat) :
    varlen_decode (b :: rest) =
      (if b = 255 then
        match funpack 8 (rest.take 8) with
        | .ok v => .ok (v, rest.drop 8)
        | .error e => .error e
      else if b = 254 then
        match funpack 4 (rest.take 4) with
        | .ok v => .ok (v, rest.drop 4)
        | .error e => .error e
      else if b = 253 then
        match funpack 2 (rest.take 2) with
        | .ok v => .ok (v, rest.drop 2)
        | .error e => .error e
      else .ok (b, rest)) := rfl

theorem varlen_decode_encode (v : Nat) (h : v < 2 ^ 64) :
    varlen_decode (varlen_encode v) = .ok (v, []) := by
  unfold varlen_encode
  by_cases h1 : v < 253
  · rw [if_pos h1, varlen_decode_cons,
      if_neg (by omega), if_neg (by omega), if_neg (by omega)]
  · by_cases h2 : v ≤ 65535
    · have htake : (toLE 2 v).take 2 = toLE 2 v := List.take_of_length_le (by simp)
      have hdrop : (toLE 2 v).drop 2 = [] := List.drop_eq_nil_of_le (by simp)
      have hfun : funpack 2 (toLE 2 v) = .ok v := by
        rw [funpack_ok 2 (toLE 2 v) (by simp), fromLE_toLE 2 v (by norm_num; omega)]
      rw [if_neg h1, if_pos h2, varlen_decode_cons]
      simp [htake, hdrop, hfun]
    · by_cases h3 : v ≤ 4294967295
      · have htake : (toLE 4 v).take 4 = toLE 4 v := List.take_of_length_le (by simp)
        have hdrop : (toLE 4 v).drop 4 = [] := List.drop_eq_nil_of_le (by simp)
        have hfun : funpack 4 (toLE 4 v) = .ok v := by
          rw [funpack_ok 4 (toLE 4 v) (by simp), fromLE_toLE 4 v (by norm_num; omega)]
        rw [if_neg h1, if_neg h2, if_pos h3, varlen_decode_cons]
        simp [htake, hdrop, hfun]
      · have htake : (toLE 8 v).take 8 = toLE 8 v := List.take_of_length_le (by simp)
        have hdrop : (toLE 8 v).drop 8 = [] := List.drop_eq_nil_of_le (by simp)
        have hfun : funpack 8 (toLE 8 v) = .ok v := by
          rw [funpack_ok 8 (toLE 8 v) (by simp), fromLE_toLE 8 v (by norm_num; omega)]
        rw [if_neg h1, if_neg h2, if_neg h3, varlen_decode_cons]
        simp [htake, hdrop, hfun]

theorem varlen_encode_length (v : Nat) :
    (varlen_encode v).length =
      if v ≤ 252 then 1 else if v ≤ 65535 then 3
      else if v ≤ 4294967295 then 5 else 9 := by
  unfold varlen_encode
  by_cases h1 : v < 253
  · simp [h1, show v ≤ 252 by omega]
  · by_cases h2 : v ≤ 65535
    · simp [h1, h2, show ¬ v ≤ 252 by omega]
    · by_cases h3 : v ≤ 4294967295
      · simp [h1, h2, h3, show ¬ v ≤ 252 by omega]
      · simp [h1, h2, h3, show ¬ v ≤ 252 by omega]


example :
    (Transaction.empty.disassemble (some [1, 0, 0, 0, 0, 0, 0, 0, 0, 0]) false none).2
      = none := by decide

example :
    (Transaction.empty.disassemble (some [1, 0, 0, 0, 0, 0, 0, 0, 0, 0]) false
      none).1.assembleBytes = [1, 0, 0, 0, 0, 0, 0, 0, 0, 0] := by decide

theorem funpack_err (w : Nat) (s : List Nat) (h : s.length ≠ w) :
    funpack w s = .error .truncatedInput := by
  simp [funpack, h]

theorem varlen_decode_nil : varlen_decode [] = .error .truncatedInput := rfl

theorem disassembleCore_fees (t : Transaction) (data : List Nat) (d : Bool) :
    (disassembleCore t data d).1.fees = t.fees := by
  unfold disassembleCore
  dsimp only
  repeat' split
  all_goals rfl

/-- On a buffer of exactly 4 bytes the core parse reads the version and then
fails decoding the input-count varint from the empty remainder. -/
theorem disassembleCore_len4 (t : Transaction) (raw : List Nat) (d : Bool)
    (h4 : raw.length = 4) :
    disassembleCore t raw d =
      ({ t with version := fromLE raw }, some .truncatedInput) := by
  have htake : raw.take 4 = raw := List.take_of_length_le (by omega)
  have hdrop : raw.drop 4 = [] := List.drop_eq_nil_of_le (by omega)
  unfold disassembleCore
  simp only [htake, hdrop, funpack_ok 4 raw h4, varlen_decode_nil]

/-- With a falsy fees argument (None or 0) the fees attribute survives the
whole call, whatever else happens. -/
theorem disassemble_fees_falsy (t : Transaction) (raw : Option (List Nat))
    (d : Bool) (f : Option Int) (hf : feesTruthy f = false) :
    (t.disassemble raw d f).1.fees = t.fees := by
  unfold Transaction.disassemble
  rw [hf]
  cases raw with
  | none =>
    cases hr : t.raw_cache with
    | none => simp [rawTruthy, hr]
    | some data => simp [rawTruthy, hr, disassembleCore_fees]
  | some rl =>
    cases rl with
    | nil =>
      cases hr : t.raw_cache with
      | none => simp [rawTruthy, hr]
      | some data => simp [rawTruthy, hr, disassembleCore_fees]
    | cons b bs => simp [rawTruthy, disassembleCore_fees]

/-- C2: for every unsigned 64-bit integer v, decoding the varint encoding of
v yields v with an empty remainder, and the encoder always picks the
smallest of the four tiers (1 byte for 0-252, marker plus 2, 4 or 8
little-endian bytes), so each integer has one canonical encoding. -/
theorem C2_varint_roundtrip (v : Nat) (h : v < 2 ^ 64) :
    varlen_decode (varlen_encode v) = .ok (v, []) ∧
    (varlen_encode v).length =
      (if v ≤ 252 then 1 else if v ≤ 65535 then 3
       else if v ≤ 4294967295 then 5 else 9) :=
  ⟨varlen_decode_encode v h, varlen_encode_length v⟩

/-- Witness for C2 at v = 300: the hypothesis v below 2 to the 64 holds and
the round-trip plus minimal-tier conclusion evaluates as stated. -/
theorem C2_varint_roundtrip_witness :
    (300 : Nat) < 2 ^ 64 ∧
    (varlen_decode (varlen_encode 300) = .ok (300, []) ∧
     (varlen_encode 300).length =
       (if (300:Nat) ≤ 252 then 1 else if (300:Nat) ≤ 65535 then 3
        else if (300:Nat) ≤ 4294967295 then 5 else 9)) :=
  ⟨by norm_num, C2_varint_roundtrip 300 (by norm_num)⟩

theorem funpack_take_append (w : Nat) (d E : List Nat) (v : Nat)
    (h : funpack w (d.take w) = .ok v) :
    funpack w ((d ++ E).take w) = .ok v := by
  rw [List.take_append_of_le_length (funpack_take_ok w d v h).1]
  exact h

/-- Varint decoding consumes only a prefix, so a successful decode is
unchanged by bytes appended after the buffer. -/
theorem varlen_decode_append (d E : List Nat) (v : Nat) (rest : List Nat)
    (h : varlen_decode d = .ok (v, rest)) :
    varlen_decode (d ++ E) = .ok (v, rest ++ E) := by
  cases d with
  | nil => simp [varlen_decode] at h
  | cons b bs =>
    show varlen_decode (b :: (bs ++ E)) = .ok (v, rest ++ E)
    rw [varlen_decode_cons] at h ⊢
    by_cases h255 : b = 255
    · rw [if_pos h255] at h ⊢
      cases hfun : funpack 8 (bs.take 8) with
      | error e => simp [hfun] at h
      | ok w =>
        have h8 : 8 ≤ bs.length := (funpack_take_ok 8 bs w hfun).1
        simp only [hfun, Except.ok.injEq, Prod.mk.injEq] at h
        obtain ⟨rfl, rfl⟩ := h
        simp only [List.take_append_of_le_length h8, hfun,
          List.drop_append_of_le_length h8]
    · rw [if_neg h255] at h ⊢
      by_cases h254 : b = 254
      · rw [if_pos h254] at h ⊢
        cases hfun : funpack 4 (bs.take 4) with
        | error e => simp [hfun] at h
        | ok w =>
          have h4 : 4 ≤ bs.length := (funpack_take_ok 4 bs w hfun).1
          simp only [hfun, Except.ok.injEq, Prod.mk.injEq] at h
          obtain ⟨rfl, rfl⟩ := h
          simp only [List.take_append_of_le_length h4, hfun,
            List.drop_append_of_le_length h4]
      · rw [if_neg h254] at h ⊢
        by_cases h253 : b = 253
        · rw [if_pos h253] at h ⊢
          cases hfun : funpack 2 (bs.take 2) with
          | error e => simp [hfun] at h
          | ok w =>
            have h2 : 2 ≤ bs.length := (funpack_take_ok 2 bs w hfun).1
            simp only [hfun, Except.ok.injEq, Prod.mk.injEq] at h
            obtain ⟨rfl, rfl⟩ := h
            simp only [List.take_append_of_le_length h2, hfun,
              List.drop_append_of_le_length h2]
        · rw [if_neg h253] at h ⊢
          simp only [Except.ok.injEq, Prod.mk.injEq] at h
          obtain ⟨rfl, rfl⟩ := h
          rfl

/-- A successful input-loop run is unchanged by appended bytes: it parses
the same inputs and leaves the appended bytes at the end of the
remainder. -/
theorem parseInputs_append (E : List Nat) :
    ∀ (n : Nat) (data : List Nat) (acc inps : List Input) (rest : List Nat),
    parseInputs n data acc = (inps, rest, none) →
    parseInputs n (data ++ E) acc = (inps, rest ++ E, none) := by
  intro n
  induction n with
  | zero =>
    intro data acc inps rest h
    simp only [parseInputs, Prod.mk.injEq] at h
    obtain ⟨rfl, rfl, -⟩ := h
    rfl
  | succ n ih =>
    intro data acc inps rest h
    cases hidx : funpack 4 ((data.drop 32).take 4) with
    | error e => simp [parseInputs, hidx] at h
    | ok idx =>
      have h36 : 36 ≤ data.length := by
        have := (funpack_take_ok 4 (data.drop 32) idx hidx).1
        rw [List.length_drop] at this; omega
      cases hvar : varlen_decode (data.drop 36) with
      | error e => simp [parseInputs, hidx, hvar] at h
      | ok p =>
        obtain ⟨ss_len, d1⟩ := p
        cases hseq : funpack 4 ((d1.drop ss_len).take 4) with
        | error e => simp [parseInputs, hidx, hvar, hseq] at h
        | ok seqno =>
          have hd1 : ss_len + 4 ≤ d1.length := by
            have := (funpack_take_ok 4 (d1.drop ss_len) seqno hseq).1
            rw [List.length_drop] at this; omega
          have hidx' : funpack 4 (((data ++ E).drop 32).take 4) = .ok idx := by
            rw [List.drop_append_of_le_length (by omega)]
            exact funpack_take_append 4 (data.drop 32) E idx hidx
          have hvar' : varlen_decode ((data ++ E).drop 36) = .ok (ss_len, d1 ++ E) := by
            rw [List.drop_append_of_le_length h36]
            exact varlen_decode_append (data.drop 36) E ss_len d1 hvar
          have hseq' : funpack 4 (((d1 ++ E).drop ss_len).take 4) = .ok seqno := by
            rw [List.drop_append_of_le_length (by omega)]
            exact funpack_take_append 4 (d1.drop ss_len) E seqno hseq
          have ht32 : (data ++ E).take 32 = data.take 32 :=
            List.take_append_of_le_length (by omega)
          have htk : (d1 ++ E).take ss_len = d1.take ss_len :=
            List.take_append_of_le_length (by omega)
          have hdp : (d1 ++ E).drop (ss_len + 4) = d1.drop (ss_len + 4) ++ E :=
            List.drop_append_of_le_length hd1
          simp only [parseInputs, hidx, hvar, hseq] at h
          simp only [parseInputs, hidx', hvar', hseq', ht32, htk, hdp]
          exact ih (d1.drop (ss_len + 4)) _ inps rest h

/-- A successful output-loop run over an empty buffer ends with an empty
remainder (only a zero count gets that far). -/
theorem parseOutputs_nil (n : Nat) (acc outs : List Output) (rest : List Nat)
    (h : parseOutputs n [] acc = (outs, rest, none)) : rest = [] := by
  cases n with
  | zero =>
    simp only [parseOutputs, Prod.mk.injEq] at h
    exact h.2.1.symm
  | succ n =>
    have hfail : funpack 8 ([] : List Nat) = .error .truncatedInput :=
      funpack_err 8 [] (by simp)
    simp [parseOutputs, hfail] at h

/-- The output loop is prefix-stable on success, provided its remainder is
nonempty (a short final script slice, the only way appended bytes could be
picked up, forces an empty remainder). -/
theorem parseOutputs_append (E : List Nat) :
    ∀ (n : Nat) (data : List Nat) (acc outs : List Output) (rest : List Nat),
    parseOutputs n data acc = (outs, rest, none) → rest ≠ [] →
    parseOutputs n (data ++ E) acc = (outs, rest ++ E, none) := by
  intro n
  induction n with
  | zero =>
    intro data acc outs rest h _
    simp only [parseOutputs, Prod.mk.injEq] at h
    obtain ⟨rfl, rfl, -⟩ := h
    rfl
  | succ n ih =>
    intro data acc outs rest h hrest
    cases hamt : funpack 8 (data.take 8) with
    | error e => simp [parseOutputs, hamt] at h
    | ok amount =>
      have h8 : 8 ≤ data.length := (funpack_take_ok 8 data amount hamt).1
      cases hvar : varlen_decode (data.drop 8) with
      | error e => simp [parseOutputs, hamt, hvar] at h
      | ok p =>
        obtain ⟨ps_len, d1⟩ := p
        have hamt' : funpack 8 ((data ++ E).take 8) = .ok amount :=
          funpack_take_append 8 data E amount hamt
        have hvar' : varlen_decode ((data ++ E).drop 8) = .ok (ps_len, d1 ++ E) := by
          rw [List.drop_append_of_le_length h8]
          exact varlen_decode_append (data.drop 8) E ps_len d1 hvar
        by_cases hlen : ps_len ≤ d1.length
        · have htk : (d1 ++ E).take ps_len = d1.take ps_len :=
            List.take_append_of_le_length hlen
          have hdp : (d1 ++ E).drop ps_len = d1.drop ps_len ++ E :=
            List.drop_append_of_le_length hlen
          simp only [parseOutputs, hamt, hvar] at h
          simp only [parseOutputs, hamt', hvar', htk, hdp]
          exact ih (d1.drop ps_len) _ outs rest h hrest
        · exfalso
          have hnil : d1.drop ps_len = [] := List.drop_eq_nil_of_le (by omega)
          simp only [parseOutputs, hamt, hvar, hnil] at h
          exact hrest (parseOutputs_nil n _ outs rest h)

/-- A buffer the core parses completely, extended with extra bytes, parses
field-for-field the same way (consumption is strictly left-to-right) and
then fails the trailing-length assertion with MalformedTransaction. -/
theorem disassembleCore_trailing (t u : Transaction) (B E : List Nat)
    (t' : Transaction) (d d' : Bool) (hE : E ≠ [])
    (h : disassembleCore t B d = (t', none)) :
    (disassembleCore u (B ++ E) d').2 = some .malformedTransaction := by
  unfold disassembleCore at h ⊢
  cases hv : funpack 4 (B.take 4) with
  | error e => simp [hv] at h
  | ok ver =>
    have h4 : 4 ≤ B.length := (funpack_take_ok 4 B ver hv).1
    have hv' : funpack 4 ((B ++ E).take 4) = .ok ver :=
      funpack_take_append 4 B E ver hv
    cases hvar : varlen_decode (B.drop 4) with
    | error e => simp [hv, hvar] at h
    | ok p =>
      obtain ⟨n, data1⟩ := p
      have hvar' : varlen_decode ((B ++ E).drop 4) = .ok (n, data1 ++ E) := by
        rw [List.drop_append_of_le_length h4]
        exact varlen_decode_append (B.drop 4) E n data1 hvar
      rcases hpi : parseInputs n data1 [] with ⟨inps, data2, eI⟩
      cases eI with
      | some e => simp [hv, hvar, hpi] at h
      | none =>
        have hpi' : parseInputs n (data1 ++ E) [] = (inps, data2 ++ E, none) :=
          parseInputs_append E n data1 [] inps data2 hpi
        cases hvo : varlen_decode data2 with
        | error e => simp [hv, hvar, hpi, hvo] at h
        | ok q =>
          obtain ⟨m, data2b⟩ := q
          rcases hpo : parseOutputs m data2b [] with ⟨outs, data3, eO⟩
          cases eO with
          | some e => simp [hv, hvar, hpi, hvo, hpo] at h
          | none =>
            cases hlt : funpack 4 (data3.take 4) with
            | error e => simp [hv, hvar, hpi, hvo, hpo, hlt] at h
            | ok lt =>
              by_cases hlen : data3.length = 4
              case neg => simp [hv, hvar, hpi, hvo, hpo, hlt, hlen] at h
              case pos =>
                have hd3 : data3 ≠ [] := by
                  intro hh; rw [hh] at hlen; simp at hlen
                have hvo' : varlen_decode (data2 ++ E) = .ok (m, data2b ++ E) :=
                  varlen_decode_append data2 E m data2b hvo
                have hpo' : parseOutputs m (data2b ++ E) []
                    = (outs, data3 ++ E, none) :=
                  parseOutputs_append E m data2b [] outs data3 hpo hd3
                have hlt' : funpack 4 ((data3 ++ E).take 4) = .ok lt :=
                  funpack_take_append 4 data3 E lt hlt
                have hlen' : ¬ (data3 ++ E).length = 4 := by
                  rw [List.length_append]
                  have : E.length ≠ 0 := by simpa using hE
                  omega
                simp only [hv', hvar', hpi', hvo', hpo', hlt', if_neg hlen']

/-- C3: for every buffer B that disassembles completely and every nonempty
extension E, disassembling B with E appended fails with
MalformedTransaction: all earlier reads are strictly left-to-right and see
the same bytes, and the final exact-exhaustion assertion sees the extra
bytes. -/
theorem C3_trailing_garbage (B E : List Nat) (t : Transaction) (hE : E ≠ [])
    (h : Transaction.empty.disassemble (some B) false none = (t, none)) :
    (Transaction.empty.disassemble (some (B ++ E)) false none).2
      = some .malformedTransaction := by
  cases B with
  | nil =>
    have h2 : (Transaction.empty.disassemble (some []) false none).2 = none :=
      congrArg Prod.snd h
    exact absurd h2 (by decide)
  | cons b bs =>
    have hcore : disassembleCore
        { Transaction.empty with raw_cache := some (b :: bs) } (b :: bs) false
        = (t, none) := h
    exact disassembleCore_trailing
      { Transaction.empty with raw_cache := some (b :: bs) }
      { Transaction.empty with raw_cache := some (b :: (bs ++ E)) }
      (b :: bs) E t false false hE hcore

/-- Witness for C3: the minimal 10-byte empty transaction with one stray
byte appended is rejected as malformed. -/
theorem C3_trailing_garbage_witness :
    (Transaction.empty.disassemble
        (some ([1,0,0,0,0,0,0,0,0,0] ++ [7])) false none).2
      = some .malformedTransaction :=
  C3_trailing_garbage [1,0,0,0,0,0,0,0,0,0] [7]
    { Transaction.empty with raw_cache := some [1,0,0,0,0,0,0,0,0,0] }
    (by decide) (by decide)

theorem varlen_decode_strict_ok (d : List Nat) (v : Nat) (rest : List Nat)
    (h : varlen_decode_strict d = .ok (v, rest)) :
    varlen_decode d = .ok (v, rest) ∧ varlen_encode v ++ rest = d := by
  cases hd : varlen_decode d with
  | error e => simp [varlen_decode_strict, hd] at h
  | ok p =>
    obtain ⟨w, r⟩ := p
    simp only [varlen_decode_strict, hd] at h
    split at h
    · next hc =>
      simp only [Except.ok.injEq, Prod.mk.injEq] at h
      obtain ⟨rfl, rfl⟩ := h
      exact ⟨rfl, hc⟩
    · simp at h

/-- A strict input parse is a plain parse (for any accumulator). -/
theorem parseInputsStrict_toPlain (n : Nat) :
    ∀ (data : List Nat) (ins : List Input) (rest : List Nat) (acc : List Input),
    parseInputsStrict n data = .ok (ins, rest) →
    parseInputs n data acc = (acc ++ ins, rest, none) := by
  induction n with
  | zero =>
    intro data ins rest acc h
    simp only [parseInputsStrict, Except.ok.injEq, Prod.mk.injEq] at h
    obtain ⟨rfl, rfl⟩ := h
    simp [parseInputs]
  | succ n ih =>
    intro data ins rest acc h
    cases hidx : funpack 4 ((data.drop 32).take 4) with
    | error e => simp [parseInputsStrict, hidx] at h
    | ok idx =>
      cases hvs : varlen_decode_strict (data.drop 36) with
      | error e => simp [parseInputsStrict, hidx, hvs] at h
      | ok p =>
        obtain ⟨ss_len, d1⟩ := p
        have hplain := (varlen_decode_strict_ok _ _ _ hvs).1
        cases hseq : funpack 4 ((d1.drop ss_len).take 4) with
        | error e => simp [parseInputsStrict, hidx, hvs, hseq] at h
        | ok seqno =>
          cases hrec : parseInputsStrict n (d1.drop (ss_len + 4)) with
          | error e => simp [parseInputsStrict, hidx, hvs, hseq, hrec] at h
          | ok q =>
            obtain ⟨ins', rest'⟩ := q
            simp only [parseInputsStrict, hidx, hvs, hseq, hrec,
              Except.ok.injEq, Prod.mk.injEq] at h
            obtain ⟨rfl, rfl⟩ := h
            simp only [parseInputs, hidx, hplain, hseq]
            rw [ih (d1.drop (ss_len + 4)) ins' rest'
              (acc ++ [Input.mk (data.take 32) idx (d1.take ss_len) seqno]) hrec]
            simp

/-- A strict output parse is a plain parse (for any accumulator). -/
theorem parseOutputsStrict_toPlain (n : Nat) :
    ∀ (data : List Nat) (outs : List Output) (rest : List Nat) (acc : List Output),
    parseOutputsStrict n data = .ok (outs, rest) →
    parseOutputs n data acc = (acc ++ outs, rest, none) := by
  induction n with
  | zero =>
    intro data outs rest acc h
    simp only [parseOutputsStrict, Except.ok.injEq, Prod.mk.injEq] at h
    obtain ⟨rfl, rfl⟩ := h
    simp [parseOutputs]
  | succ n ih =>
    intro data outs rest acc h
    cases hamt : funpack 8 (data.take 8) with
    | error e => simp [parseOutputsStrict, hamt] at h
    | ok amount =>
      cases hvs : varlen_decode_strict (data.drop 8) with
      | error e => simp [parseOutputsStrict, hamt, hvs] at h
      | ok p =>
        obtain ⟨ps_len, d1⟩ := p
        have hplain := (varlen_decode_strict_ok _ _ _ hvs).1
        cases hrec : parseOutputsStrict n (d1.drop ps_len) with
        | error e => simp [parseOutputsStrict, hamt, hvs, hrec] at h
        | ok q =>
          obtain ⟨outs', rest'⟩ := q
          simp only [parseOutputsStrict, hamt, hvs, hrec,
            Except.ok.injEq, Prod.mk.injEq] at h
          obtain ⟨rfl, rfl⟩ := h
          simp only [parseOutputs, hamt, hplain]
          rw [ih (d1.drop ps_len) outs' rest'
            (acc ++ [Output.mk amount (d1.take ps_len)]) hrec]
          simp

/-- A strict output parse over an empty buffer ends with an empty
remainder. -/
theorem parseOutputsStrict_nil (n : Nat) (outs : List Output) (rest : List Nat)
    (h : parseOutputsStrict n [] = .ok (outs, rest)) : rest = [] := by
  cases n with
  | zero =>
    simp only [parseOutputsStrict, Except.ok.injEq, Prod.mk.injEq] at h
    exact h.2.symm
  | succ n =>
    have hfail : funpack 8 ([] : List Nat) = .error .truncatedInput :=
      funpack_err 8 [] (by simp)
    simp [parseOutputsStrict, hfail] at h

/-- A strict input parse consumes exactly the wire encoding of the inputs
it returns: re-encoding them and appending the remainder rebuilds the
buffer, and exactly n inputs come back. -/
theorem parseInputsStrict_encode (n : Nat) :
    ∀ (data : List Nat) (ins : List Input) (rest : List Nat),
    ValidBytes data →
    parseInputsStrict n data = .ok (ins, rest) →
    (ins.map encodeInput).flatten ++ rest = data ∧ ins.length = n := by
  induction n with
  | zero =>
    intro data ins rest _ h
    simp only [parseInputsStrict, Except.ok.injEq, Prod.mk.injEq] at h
    obtain ⟨rfl, rfl⟩ := h
    simp
  | succ n ih =>
    intro data ins rest hval h
    cases hidx : funpack 4 ((data.drop 32).take 4) with
    | error e => simp [parseInputsStrict, hidx] at h
    | ok idx =>
      cases hvs : varlen_decode_strict (data.drop 36) with
      | error e => simp [parseInputsStrict, hidx, hvs] at h
      | ok p =>
        obtain ⟨ss_len, d1⟩ := p
        obtain ⟨hplain, hcanon⟩ := varlen_decode_strict_ok _ _ _ hvs
        cases hseq : funpack 4 ((d1.drop ss_len).take 4) with
        | error e => simp [parseInputsStrict, hidx, hvs, hseq] at h
        | ok seqno =>
          cases hrec : parseInputsStrict n (d1.drop (ss_len + 4)) with
          | error e => simp [parseInputsStrict, hidx, hvs, hseq, hrec] at h
          | ok q =>
            obtain ⟨ins', rest'⟩ := q
            simp only [parseInputsStrict, hidx, hvs, hseq, hrec,
              Except.ok.injEq, Prod.mk.injEq] at h
            obtain ⟨rfl, rfl⟩ := h
            have h36 : 36 ≤ data.length := by
              have := (funpack_take_ok 4 (data.drop 32) idx hidx).1
              rw [List.length_drop] at this; omega
            have hd1len : ss_len + 4 ≤ d1.length := by
              have := (funpack_take_ok 4 (d1.drop ss_len) seqno hseq).1
              rw [List.length_drop] at this; omega
            have hval36 : ValidBytes (data.drop 36) :=
              fun x hx => hval x (List.drop_subset 36 data hx)
            have hvald1 : ValidBytes d1 := fun x hx =>
              hval36 x (by rw [← hcanon]; exact List.mem_append_right _ hx)
            have hvalrec : ValidBytes (d1.drop (ss_len + 4)) :=
              fun x hx => hvald1 x (List.drop_subset _ _ hx)
            obtain ⟨ihEq, ihLen⟩ := ih (d1.drop (ss_len + 4)) ins' rest' hvalrec hrec
            refine ⟨?_, by simpa using ihLen⟩
            have e1 : toLE 4 idx = (data.drop 32).take 4 := by
              have hl : ((data.drop 32).take 4).length = 4 := by
                rw [List.length_take, List.length_drop]; omega
              have hvx : ValidBytes ((data.drop 32).take 4) := fun x hx =>
                hval x (List.drop_subset _ _ (List.take_subset _ _ hx))
              rw [(funpack_take_ok 4 (data.drop 32) idx hidx).2]
              have hfl := toLE_fromLE ((data.drop 32).take 4) hvx
              rw [hl] at hfl
              exact hfl
            have e2 : toLE 4 seqno = (d1.drop ss_len).take 4 := by
              have hl : ((d1.drop ss_len).take 4).length = 4 := by
                rw [List.length_take, List.length_drop]; omega
              have hvx : ValidBytes ((d1.drop ss_len).take 4) := fun x hx =>
                hvald1 x (List.drop_subset _ _ (List.take_subset _ _ hx))
              rw [(funpack_take_ok 4 (d1.drop ss_len) seqno hseq).2]
              have hfl := toLE_fromLE ((d1.drop ss_len).take 4) hvx
              rw [hl] at hfl
              exact hfl
            have escript : (d1.take ss_len).length = ss_len := by
              rw [List.length_take]; omega
            have hA : (d1.drop ss_len).take 4 ++ d1.drop (ss_len + 4)
                = d1.drop ss_len := by
              have hdd : d1.drop (ss_len + 4) = (d1.drop ss_len).drop 4 := by
                rw [List.drop_drop]
              rw [hdd, List.take_append_drop]
            have hB : (data.drop 32).take 4 ++ data.drop 36 = data.drop 32 := by
              have hdd : data.drop 36 = (data.drop 32).drop 4 := by
                rw [List.drop_drop]
              rw [hdd, List.take_append_drop]
            have hstep : encodeInput
                (Input.mk (data.take 32) idx (d1.take ss_len) seqno)
                ++ d1.drop (ss_len + 4) = data := by
              simp only [encodeInput, escript, e1, e2, List.append_assoc]
              rw [hA, List.take_append_drop, hcanon, hB, List.take_append_drop]
            calc ((Input.mk (data.take 32) idx (d1.take ss_len) seqno :: ins').map
                    encodeInput).flatten ++ rest'
                = encodeInput (Input.mk (data.take 32) idx (d1.take ss_len) seqno)
                    ++ ((ins'.map encodeInput).flatten ++ rest') := by
                  simp [List.append_assoc]
              _ = encodeInput (Input.mk (data.take 32) idx (d1.take ss_len) seqno)
                    ++ d1.drop (ss_len + 4) := by rw [ihEq]
              _ = data := hstep

/-- A strict output parse with a nonempty remainder consumes exactly the
wire encoding of the outputs it returns. -/
theorem parseOutputsStrict_encode (n : Nat) :
    ∀ (data : List Nat) (outs : List Output) (rest : List Nat),
    ValidBytes data → rest ≠ [] →
    parseOutputsStrict n data = .ok (outs, rest) →
    (outs.map encodeOutput).flatten ++ rest = data ∧ outs.length = n := by
  induction n with
  | zero =>
    intro data outs rest _ _ h
    simp only [parseOutputsStrict, Except.ok.injEq, Prod.mk.injEq] at h
    obtain ⟨rfl, rfl⟩ := h
    simp
  | succ n ih =>
    intro data outs rest hval hrest h
    cases hamt : funpack 8 (data.take 8) with
    | error e => simp [parseOutputsStrict, hamt] at h
    | ok amount =>
      cases hvs : varlen_decode_strict (data.drop 8) with
      | error e => simp [parseOutputsStrict, hamt, hvs] at h
      | ok p =>
        obtain ⟨ps_len, d1⟩ := p
        obtain ⟨hplain, hcanon⟩ := varlen_decode_strict_ok _ _ _ hvs
        cases hrec : parseOutputsStrict n (d1.drop ps_len) with
        | error e => simp [parseOutputsStrict, hamt, hvs, hrec] at h
        | ok q =>
          obtain ⟨outs', rest'⟩ := q
          simp only [parseOutputsStrict, hamt, hvs, hrec,
            Except.ok.injEq, Prod.mk.injEq] at h
          obtain ⟨rfl, rfl⟩ := h
          have h8 : 8 ≤ data.length := (funpack_take_ok 8 data amount hamt).1
          have hval8 : ValidBytes (data.drop 8) :=
            fun x hx => hval x (List.drop_subset 8 data hx)
          have hvald1 : ValidBytes d1 := fun x hx =>
            hval8 x (by rw [← hcanon]; exact List.mem_append_right _ hx)
          have hlen : ps_len ≤ d1.length := by
            by_contra hcon
            have hnil : d1.drop ps_len = [] := List.drop_eq_nil_of_le (by omega)
            rw [hnil] at hrec
            exact hrest (parseOutputsStrict_nil n outs' rest' hrec)
          have hvalrec : ValidBytes (d1.drop ps_len) :=
            fun x hx => hvald1 x (List.drop_subset _ _ hx)
          obtain ⟨ihEq, ihLen⟩ := ih (d1.drop ps_len) outs' rest' hvalrec hrest hrec
          refine ⟨?_, by simpa using ihLen⟩
          have e0 : toLE 8 amount = data.take 8 := by
            have hl : (data.take 8).length = 8 := by
              rw [List.length_take]; omega
            have hvx : ValidBytes (data.take 8) := fun x hx =>
              hval x (List.take_subset _ _ hx)
            rw [(funpack_take_ok 8 data amount hamt).2]
            have hfl := toLE_fromLE (data.take 8) hvx
            rw [hl] at hfl
            exact hfl
          have epk : (d1.take ps_len).length = ps_len := by
            rw [List.length_take]; omega
          have hstep : encodeOutput (Output.mk amount (d1.take ps_len))
              ++ d1.drop ps_len = data := by
            simp only [encodeOutput, epk, e0, List.append_assoc]
            rw [List.take_append_drop, hcanon, List.take_append_drop]
          calc ((Output.mk amount (d1.take ps_len) :: outs').map
                  encodeOutput).flatten ++ rest'
              = encodeOutput (Output.mk amount (d1.take ps_len))
                  ++ ((outs'.map encodeOutput).flatten ++ rest') := by
                simp [List.append_assoc]
            _ = encodeOutput (Output.mk amount (d1.take ps_len))
                  ++ d1.drop ps_len := by rw [ihEq]
            _ = data := hstep

/-- A strict parse is a plain disassembly: when the canonical parser
accepts a buffer, the source core parser accepts it too and fills the very
same fields (for any starting state and with the raw copy retained). -/
theorem disassembleStrict_core (B : List Nat) (v : Nat) (ins : List Input)
    (outs : List Output) (lt : Nat) (t : Transaction)
    (h : disassembleStrict B = .ok (v, ins, outs, lt)) :
    disassembleCore t B false
      = ({ t with version := v, inputs := ins, outputs := outs, locktime := lt, hash_cache := none },
        none) := by
  cases hv : funpack 4 (B.take 4) with
  | error e => simp [disassembleStrict, hv] at h
  | ok ver =>
    cases hvs1 : varlen_decode_strict (B.drop 4) with
    | error e => simp [disassembleStrict, hv, hvs1] at h
    | ok p =>
      obtain ⟨n, data1⟩ := p
      obtain ⟨hplain1, -⟩ := varlen_decode_strict_ok _ _ _ hvs1
      cases hpi : parseInputsStrict n data1 with
      | error e => simp [disassembleStrict, hv, hvs1, hpi] at h
      | ok q =>
        obtain ⟨insS, data2⟩ := q
        have hpiPlain := parseInputsStrict_toPlain n data1 insS data2 [] hpi
        cases hvs2 : varlen_decode_strict data2 with
        | error e => simp [disassembleStrict, hv, hvs1, hpi, hvs2] at h
        | ok r =>
          obtain ⟨m, data2b⟩ := r
          obtain ⟨hplain2, -⟩ := varlen_decode_strict_ok _ _ _ hvs2
          cases hpo : parseOutputsStrict m data2b with
          | error e => simp [disassembleStrict, hv, hvs1, hpi, hvs2, hpo] at h
          | ok s =>
            obtain ⟨outsS, data3⟩ := s
            have hpoPlain := parseOutputsStrict_toPlain m data2b outsS data3 [] hpo
            cases hlt : funpack 4 (data3.take 4) with
            | error e => simp [disassembleStrict, hv, hvs1, hpi, hvs2, hpo, hlt] at h
            | ok lk =>
              by_cases hlen : data3.length = 4
              case neg =>
                simp [disassembleStrict, hv, hvs1, hpi, hvs2, hpo, hlt, hlen] at h
              case pos =>
                simp only [disassembleStrict, hv, hvs1, hpi, hvs2, hpo, hlt,
                  if_pos hlen, Except.ok.injEq, Prod.mk.injEq] at h
                obtain ⟨rfl, rfl, rfl, rfl⟩ := h
                unfold disassembleCore
                simp only [hv, hplain1, hpiPlain, hplain2, hpoPlain, hlt,
                  if_pos hlen, List.nil_append]
                rfl

/-- A strict parse consumes exactly the canonical wire encoding of the
fields it returns: re-encoding them rebuilds the buffer byte for byte. -/
theorem disassembleStrict_bytes (B : List Nat) (hval : ValidBytes B)
    (v : Nat) (ins : List Input) (outs : List Output) (lt : Nat)
    (h : disassembleStrict B = .ok (v, ins, outs, lt)) :
    toLE 4 v ++ varlen_encode ins.length ++ (ins.map encodeInput).flatten
      ++ varlen_encode outs.length ++ (outs.map encodeOutput).flatten
      ++ toLE 4 lt = B := by
  cases hv : funpack 4 (B.take 4) with
  | error e => simp [disassembleStrict, hv] at h
  | ok ver =>
    cases hvs1 : varlen_decode_strict (B.drop 4) with
    | error e => simp [disassembleStrict, hv, hvs1] at h
    | ok p =>
      obtain ⟨n, data1⟩ := p
      obtain ⟨hplain1, hcanon1⟩ := varlen_decode_strict_ok _ _ _ hvs1
      cases hpi : parseInputsStrict n data1 with
      | error e => simp [disassembleStrict, hv, hvs1, hpi] at h
      | ok q =>
        obtain ⟨insS, data2⟩ := q
        cases hvs2 : varlen_decode_strict data2 with
        | error e => simp [disassembleStrict, hv, hvs1, hpi, hvs2] at h
        | ok r =>
          obtain ⟨m, data2b⟩ := r
          obtain ⟨hplain2, hcanon2⟩ := varlen_decode_strict_ok _ _ _ hvs2
          cases hpo : parseOutputsStrict m data2b with
          | error e => simp [disassembleStrict, hv, hvs1, hpi, hvs2, hpo] at h
          | ok s =>
            obtain ⟨outsS, data3⟩ := s
            cases hlt : funpack 4 (data3.take 4) with
            | error e => simp [disassembleStrict, hv, hvs1, hpi, hvs2, hpo, hlt] at h
            | ok lk =>
              by_cases hlen : data3.length = 4
              case neg =>
                simp [disassembleStrict, hv, hvs1, hpi, hvs2, hpo, hlt, hlen] at h
              case pos =>
                simp only [disassembleStrict, hv, hvs1, hpi, hvs2, hpo, hlt,
                  if_pos hlen, Except.ok.injEq, Prod.mk.injEq] at h
                obtain ⟨rfl, rfl, rfl, rfl⟩ := h
                have h4 : 4 ≤ B.length := (funpack_take_ok 4 B ver hv).1
                have hval4 : ValidBytes (B.drop 4) :=
                  fun x hx => hval x (List.drop_subset 4 B hx)
                have hval1 : ValidBytes data1 := fun x hx =>
                  hval4 x (by rw [← hcanon1]; exact List.mem_append_right _ hx)
                obtain ⟨hEI, hLI⟩ :=
                  parseInputsStrict_encode n data1 insS data2 hval1 hpi
                have hval2 : ValidBytes data2 := fun x hx =>
                  hval1 x (by rw [← hEI]; exact List.mem_append_right _ hx)
                have hval2b : ValidBytes data2b := fun x hx =>
                  hval2 x (by rw [← hcanon2]; exact List.mem_append_right _ hx)
                have hd3ne : data3 ≠ [] := by
                  intro hh; rw [hh] at hlen; simp at hlen
                obtain ⟨hEO, hLO⟩ :=
                  parseOutputsStrict_encode m data2b outsS data3 hval2b hd3ne hpo
                have hval3 : ValidBytes data3 := fun x hx =>
                  hval2b x (by rw [← hEO]; exact List.mem_append_right _ hx)
                have eV : toLE 4 ver = B.take 4 := by
                  have hl : (B.take 4).length = 4 := by rw [List.length_take]; omega
                  have hvx : ValidBytes (B.take 4) := fun x hx =>
                    hval x (List.take_subset _ _ hx)
                  rw [(funpack_take_ok 4 B ver hv).2]
                  have hfl := toLE_fromLE (B.take 4) hvx
                  rw [hl] at hfl
                  exact hfl
                have eL : toLE 4 lk = data3 := by
                  have htk : data3.take 4 = data3 := List.take_of_length_le (by omega)
                  rw [(funpack_take_ok 4 data3 lk hlt).2, htk]
                  have hfl := toLE_fromLE data3 hval3
                  rw [hlen] at hfl
                  exact hfl
                rw [hLI, hLO, eV, eL]
                simp only [List.append_assoc]
                rw [hEO, hcanon2, hEI, hcanon1, List.take_append_drop]

/-- C1 counterexample: the buffer version 1, input count 0 encoded
non-canonically as the 2-byte-marker varint fd 00 00, output count 0,
lock time 0 is accepted by disassemble, but reassembling the result emits
the canonical 1-byte count and yields a different (shorter) byte string. -/
theorem C1_counterexample :
    (Transaction.empty.disassemble (some [1,0,0,0, 253,0,0, 0, 0,0,0,0])
        false none).2 = none ∧
    (Transaction.empty.disassemble (some [1,0,0,0, 253,0,0, 0, 0,0,0,0])
        false none).1.assembleBytes ≠ [1,0,0,0, 253,0,0, 0, 0,0,0,0] := by
  decide

/-- C1 amended: for every byte buffer whose varints are all canonically
(minimal-tier) encoded and which the layout accepts — disassembleStrict,
the source parse with canonicity checks added, succeeds — disassemble
accepts it and assembling the resulting transaction returns the buffer
byte-identically, input order, output order and field encodings
preserved. -/
theorem C1_roundtrip_canonical (B : List Nat) (hval : ValidBytes B)
    (v : Nat) (ins : List Input) (outs : List Output) (lt : Nat)
    (hs : disassembleStrict B = .ok (v, ins, outs, lt)) :
    (Transaction.empty.disassemble (some B) false none).2 = none ∧
    (Transaction.empty.disassemble (some B) false none).1.assembleBytes = B := by
  obtain ⟨b, bs, rfl⟩ : ∃ b bs, B = b :: bs := by
    cases B with
    | nil => exfalso; simp [disassembleStrict, funpack] at hs
    | cons b bs => exact ⟨b, bs, rfl⟩
  have hwrap : Transaction.empty.disassemble (some (b :: bs)) false none
      = ({ Transaction.empty with raw_cache := some (b :: bs), version := v, inputs := ins, outputs := outs, locktime := lt, hash_cache := none },
        none) :=
    disassembleStrict_core (b :: bs) v ins outs lt
      { Transaction.empty with raw_cache := some (b :: bs) } hs
  rw [hwrap]
  refine ⟨rfl, ?_⟩
  have hbytes := disassembleStrict_bytes (b :: bs) hval v ins outs lt hs
  simpa [Transaction.assembleBytes] using hbytes

/-- Witness for C1 amended at the canonical minimal empty transaction. -/
theorem C1_roundtrip_canonical_witness :
    (Transaction.empty.disassemble (some [1,0,0,0,0,0,0,0,0,0]) false none).2
        = none ∧
    (Transaction.empty.disassemble (some [1,0,0,0,0,0,0,0,0,0]) false
        none).1.assembleBytes = [1,0,0,0,0,0,0,0,0,0] :=
  C1_roundtrip_canonical [1,0,0,0,0,0,0,0,0,0] (by decide) 1 [] [] 0 (by decide)

/-- C4: after an input's script-length varint yields ss_len with remainder
d1, if fewer than ss_len bytes remain the iteration fails with
TruncatedInput (the empty sequence-number slice fails the exact-width
unpack), and whenever the sequence-number unpack succeeds the appended
Input carries a script of exactly ss_len bytes. -/
theorem C4_script_length (n : Nat) (data d1 : List Nat) (accI : List Input)
    (idx ss_len : Nat)
    (hidx : funpack 4 ((data.drop 32).take 4) = .ok idx)
    (hvar : varlen_decode (data.drop 36) = .ok (ss_len, d1)) :
    (d1.length < ss_len →
      parseInputs (n + 1) data accI = (accI, d1, some .truncatedInput)) ∧
    (∀ seqno, funpack 4 ((d1.drop ss_len).take 4) = .ok seqno →
      parseInputs (n + 1) data accI =
        parseInputs n (d1.drop (ss_len + 4))
          (accI ++ [Input.mk (data.take 32) idx (d1.take ss_len) seqno]) ∧
      (d1.take ss_len).length = ss_len) := by
  constructor
  · intro hshort
    have hdrop : d1.drop ss_len = [] := List.drop_eq_nil_of_le (by omega)
    have hfail : funpack 4 ((d1.drop ss_len).take 4) = .error .truncatedInput := by
      rw [hdrop]; exact funpack_err 4 [] (by simp)
    simp only [parseInputs, hidx, hvar, hfail]
  · intro seqno hseq
    have hlen : 4 ≤ (d1.drop ss_len).length := (funpack_take_ok 4 _ _ hseq).1
    rw [List.length_drop] at hlen
    constructor
    · simp only [parseInputs, hidx, hvar, hseq]
    · rw [List.length_take]; omega

/-- Witness for C4 on a concrete single-input buffer: hash of 32 zero
bytes, index 5, script [9, 9] of declared length 2, sequence number 7. -/
theorem C4_script_length_witness :
    ((([9,9,7,0,0,0] : List Nat).length < 2 →
      parseInputs 1 (List.replicate 32 0 ++ [5,0,0,0] ++ [2] ++ [9,9] ++ [7,0,0,0]) []
        = ([], [9,9,7,0,0,0], some .truncatedInput)) ∧
    (∀ seqno,
      funpack 4 ((([9,9,7,0,0,0] : List Nat).drop 2).take 4) = .ok seqno →
      parseInputs 1 (List.replicate 32 0 ++ [5,0,0,0] ++ [2] ++ [9,9] ++ [7,0,0,0]) [] =
        parseInputs 0 (([9,9,7,0,0,0] : List Nat).drop (2 + 4))
          ([] ++ [Input.mk
            ((List.replicate 32 0 ++ [5,0,0,0] ++ [2] ++ [9,9] ++ [7,0,0,0]).take 32)
            5 (([9,9,7,0,0,0] : List Nat).take 2) seqno]) ∧
      (([9,9,7,0,0,0] : List Nat).take 2).length = 2)) :=
  C4_script_length 0
    (List.replicate 32 0 ++ [5,0,0,0] ++ [2] ++ [9,9] ++ [7,0,0,0])
    [9,9,7,0,0,0] [] 5 2 (by decide) (by decide)

/-- C5 counterexample: version then input count 65535 (encoded with the
2-byte marker) and nothing else.  The remaining buffer (empty) cannot hold
65535 minimal-size inputs, yet disassemble does not reject it with
MalformedTransaction before looping: it enters the loop and fails there
with TruncatedInput. -/
theorem C5_counterexample :
    (Transaction.empty.disassemble (some [1,0,0,0, 253,255,255]) false none).2
        = some .truncatedInput ∧
    some Err.truncatedInput ≠ some Err.malformedTransaction := by
  decide

/-- C5 amended: no defensive bound check follows the count varints.  The
loop is entered regardless, and a remaining buffer too short for even one
input's fixed fields (under 36 bytes) fails inside the first iteration
with TruncatedInput; likewise a buffer under 8 bytes for a declared
output. -/
theorem C5_amended (n m : Nat) (data dataO : List Nat)
    (acc : List Input) (accO : List Output)
    (hn : 1 ≤ n) (hd : data.length < 36) (hm : 1 ≤ m) (hdo : dataO.length < 8) :
    parseInputs n data acc = (acc, data, some .truncatedInput) ∧
    parseOutputs m dataO accO = (accO, dataO, some .truncatedInput) := by
  constructor
  · obtain ⟨k, rfl⟩ : ∃ k, n = k + 1 := ⟨n - 1, by omega⟩
    have hfail : funpack 4 ((data.drop 32).take 4) = .error .truncatedInput := by
      apply funpack_err
      rw [List.length_take, List.length_drop]
      omega
    simp only [parseInputs, hfail]
  · obtain ⟨k, rfl⟩ : ∃ k, m = k + 1 := ⟨m - 1, by omega⟩
    have hfail : funpack 8 (dataO.take 8) = .error .truncatedInput := by
      apply funpack_err
      rw [List.length_take]
      omega
    simp only [parseOutputs, hfail]

/-- Witness for C5 amended at one declared input and one declared output
over empty remaining buffers. -/
theorem C5_amended_witness :
    parseInputs 1 [] [] = ([], [], some .truncatedInput) ∧
    parseOutputs 1 [] [] = ([], [], some .truncatedInput) :=
  C5_amended 1 1 [] [] [] [] (by decide) (by decide) (by decide) (by decide)

/-- C6 counterexample: a transaction whose version was 7 is disassembled
from a 4-byte buffer carrying version 2 and nothing more.  The parse
fails (no input-count varint), yet the version field now reads 2: the
object is not left in its prior state. -/
theorem C6_counterexample :
    ((({ Transaction.empty with version := 7 } : Transaction).disassemble
        (some [2,0,0,0]) false none).2 ≠ none) ∧
    ((({ Transaction.empty with version := 7 } : Transaction).disassemble
        (some [2,0,0,0]) false none).1.version ≠ 7) := by
  decide

/-- C6 amended: disassemble mutates the object in place as it parses, so a
failed call leaves the fields written before the failure point.  On any
4-byte buffer it fails with TruncatedInput while the raw cache and the
version keep their newly written values. -/
theorem C6_amended (t : Transaction) (raw : List Nat) (h4 : raw.length = 4) :
    t.disassemble (some raw) false none =
      ({ t with raw_cache := some raw, version := fromLE raw },
        some .truncatedInput) := by
  obtain ⟨b, bs, rfl⟩ : ∃ b bs, raw = b :: bs := by
    cases raw with
    | nil => simp at h4
    | cons b bs => exact ⟨b, bs, rfl⟩
  exact disassembleCore_len4 { t with raw_cache := some (b :: bs) } (b :: bs) false h4

/-- Witness for C6 amended at the counterexample's buffer. -/
theorem C6_amended_witness :
    Transaction.empty.disassemble (some [2,0,0,0]) false none =
      ({ Transaction.empty with raw_cache := some [2,0,0,0], version := fromLE [2,0,0,0] },
        some .truncatedInput) :=
  C6_amended Transaction.empty [2,0,0,0] rfl

/-- C7: the hash property applies the external 256-bit hash H to the cached
raw buffer directly; when that buffer is absent (empty construction, or
discarded by dump_raw) it raises TypeError instead of rebuilding through
the lazy raw property, for any hash primitive H. -/
theorem C7_hash_absent_raw (H : List Nat → List Nat) :
    Transaction.hashProp H Transaction.empty = .error .typeError ∧
    Transaction.hashProp H
        (Transaction.empty.disassemble (some [1,0,0,0,0,0,0,0,0,0]) true none).1
      = .error .typeError := by
  exact ⟨rfl, rfl⟩

/-- C8: for a transaction with at least one input, is_coinbase returns true
exactly when the first input's previous-output hash is 32 zero bytes, and
false for any other first-input hash. -/
theorem C8_is_coinbase (t : Transaction) (inp : Input) (rest : List Input)
    (h : t.inputs = inp :: rest) :
    (t.is_coinbase = .ok true ↔ inp.prevout_hash = List.replicate 32 0) ∧
    (t.is_coinbase = .ok false ↔ inp.prevout_hash ≠ List.replicate 32 0) := by
  unfold Transaction.is_coinbase
  rw [h]
  by_cases hc : inp.prevout_hash = List.replicate 32 0 <;>
    simp [nullprev, hc]

/-- Witness for C8 on a coinbase-shaped transaction whose single input has
a zeroed previous-output hash. -/
theorem C8_is_coinbase_witness :
    (({ Transaction.empty with
        inputs := [Input.mk (List.replicate 32 0) 0 [] 0] } : Transaction).is_coinbase
          = .ok true
      ↔ (Input.mk (List.replicate 32 0) 0 [] 0).prevout_hash = List.replicate 32 0) ∧
    (({ Transaction.empty with
        inputs := [Input.mk (List.replicate 32 0) 0 [] 0] } : Transaction).is_coinbase
          = .ok false
      ↔ (Input.mk (List.replicate 32 0) 0 [] 0).prevout_hash ≠ List.replicate 32 0) :=
  C8_is_coinbase _ (Input.mk (List.replicate 32 0) 0 [] 0) [] rfl

/-- C9: is_coinbase on a transaction with no inputs fails with the
InvalidState precondition violation (Python's IndexError on inputs[0]),
never returning a boolean. -/
theorem C9_is_coinbase_empty (t : Transaction) (h : t.inputs = []) :
    t.is_coinbase = .error .invalidState := by
  unfold Transaction.is_coinbase
  rw [h]

/-- Witness for C9 at the empty transaction. -/
theorem C9_is_coinbase_empty_witness :
    Transaction.empty.is_coinbase = .error .invalidState :=
  C9_is_coinbase_empty Transaction.empty rfl

/-- C10: the fees parameter is stored only when truthy, so passing 0 or
None leaves the previously stored fee value unchanged, for every
transaction, raw argument and dump flag, whether or not parsing fails. -/
theorem C10_fees_preserved (t : Transaction) (raw : Option (List Nat)) (d : Bool) :
    ((t.disassemble raw d (some 0)).1.fees = t.fees) ∧
    ((t.disassemble raw d none).1.fees = t.fees) :=
  ⟨disassemble_fees_falsy t raw d (some 0) rfl,
   disassemble_fees_falsy t raw d none rfl⟩

end Cryptokit
